import Mathlib

/-!
Verification of the ramayana-tagging-backend engine: a shallow embedding of
the tag model (src/models/tag.py), the document tagger (src/models/adhyaya.py),
the corpus indexer (src/services/indexer.py), the Mongo-backed tag index
(src/database/mongodb.py) and the highlight renderer (src/routes/content.py),
together with theorems settling the specification's claims.

Strings from the Python source are modelled as `List Char` so that every
operation (split, strip, comparison) is a structurally recursive function the
kernel can evaluate.
-/

namespace Ramayana

/-! ### Generic insertion sort, modelling Python `sorted` / `list.sort` -/

/-- Insert `x` into `l` in front of the first element `y` with `le x y`. -/
def insertLe (le : α → α → Bool) (x : α) : List α → List α
  | [] => [x]
  | y :: ys => if le x y then x :: y :: ys else y :: insertLe le x ys

/-- Insertion sort with respect to a boolean comparison `le`. -/
def sortLe (le : α → α → Bool) : List α → List α
  | [] => []
  | x :: xs => insertLe le x (sortLe le xs)

theorem insertLe_perm (le : α → α → Bool) (x : α) (l : List α) :
    List.Perm (insertLe le x l) (x :: l) := by
  induction l with
  | nil => simp [insertLe]
  | cons y ys ih =>
    by_cases h : le x y = true
    · simp [insertLe, h]
    · simp only [insertLe, h, if_false, Bool.false_eq_true]
      exact (ih.cons y).trans (List.Perm.swap x y ys)

theorem sortLe_perm (le : α → α → Bool) (l : List α) :
    List.Perm (sortLe le l) l := by
  induction l with
  | nil => simp [sortLe]
  | cons x xs ih => exact (insertLe_perm le x (sortLe le xs)).trans (ih.cons x)

theorem mem_insertLe (le : α → α → Bool) (x a : α) (l : List α) :
    a ∈ insertLe le x l ↔ a = x ∨ a ∈ l := by
  rw [(insertLe_perm le x l).mem_iff, List.mem_cons]

theorem insertLe_pairwise (le : α → α → Bool)
    (hTotal : ∀ a b, le a b = true ∨ le b a = true)
    (hTrans : ∀ a b c, le a b = true → le b c = true → le a c = true)
    (x : α) (l : List α) (h : List.Pairwise (fun a b => le a b = true) l) :
    List.Pairwise (fun a b => le a b = true) (insertLe le x l) := by
  induction l with
  | nil => simp [insertLe]
  | cons y ys ih =>
    rw [List.pairwise_cons] at h
    obtain ⟨hy, hys⟩ := h
    by_cases hxy : le x y = true
    · simp only [insertLe, hxy, if_true]
      rw [List.pairwise_cons]
      refine ⟨?_, ?_⟩
      · intro z hz
        rcases List.mem_cons.mp hz with rfl | hz
        · exact hxy
        · exact hTrans x y z hxy (hy z hz)
      · rw [List.pairwise_cons]; exact ⟨hy, hys⟩
    · simp only [insertLe, hxy, if_false, Bool.false_eq_true]
      rw [List.pairwise_cons]
      refine ⟨?_, ih hys⟩
      intro z hz
      rcases (mem_insertLe le x z ys).mp hz with hzx | hz
      · rw [hzx]
        exact Or.resolve_left (hTotal x y) hxy
      · exact hy z hz

theorem sortLe_pairwise (le : α → α → Bool)
    (hTotal : ∀ a b, le a b = true ∨ le b a = true)
    (hTrans : ∀ a b c, le a b = true → le b c = true → le a c = true)
    (l : List α) :
    List.Pairwise (fun a b => le a b = true) (sortLe le l) := by
  induction l with
  | nil => simp [sortLe]
  | cons x xs ih => exact insertLe_pairwise le hTotal hTrans x (sortLe le xs) ih

theorem sortLe_length (le : α → α → Bool) (l : List α) :
    (sortLe le l).length = l.length :=
  (sortLe_perm le l).length_eq

/-! ### Python string primitives over `List Char` -/

/-- Model of Python `str.split(sep)` for a single-character separator. -/
def py_split (sep : Char) : List Char → List (List Char)
  | [] => [[]]
  | c :: rest =>
    let r := py_split sep rest
    if c = sep then [] :: r
    else
      match r with
      | [] => [[c]]
      | g :: gs => (c :: g) :: gs

/-- Model of Python `str.strip()`: drop leading and trailing whitespace. -/
def py_strip (s : List Char) : List Char :=
  ((s.dropWhile Char.isWhitespace).reverse.dropWhile Char.isWhitespace).reverse

/-! ### Annotation classifier (`Tag._process_tag_content`, src/models/tag.py) -/

/-- Model of `self.name.split(";")` followed by
`[part.strip() for part in parts if part.strip()]`. -/
def split_parts (name : List Char) : List (List Char) :=
  ((py_split ';' name).map py_strip).filter (fun p => !p.isEmpty)

/-- Model of the classification loop: a part with no space character goes to
`main_topics`, a part containing a space goes to `subject_info`, in order. -/
def classify_loop (parts : List (List Char)) : List (List Char) × List (List Char) :=
  parts.foldl
    (fun acc part =>
      if part.contains ' ' then (acc.1, acc.2 ++ [part]) else (acc.1 ++ [part], acc.2))
    ([], [])

/-- Model of the final adjustment: with more than one main topic and no
subject info, pop the last main topic into subject info. -/
def mt_adjust (ms : List (List Char) × List (List Char)) :
    List (List Char) × List (List Char) :=
  if 1 < ms.1.length ∧ ms.2 = [] then (ms.1.dropLast, ms.2 ++ [ms.1.getLastD []]) else ms

/-- Model of `Tag._process_tag_content`, returning `(main_topics, subject_info)`. -/
def process_tag_content (name : List Char) : List (List Char) × List (List Char) :=
  if name = [] then ([], [])
  else
    let parts := split_parts name
    if parts.length = 1 then ([parts.headD []], [])
    else mt_adjust (classify_loop parts)

/-! ### Span matcher (`Tag.create_pairs`, src/models/tag.py) -/

/-- Ascending sort of natural-number offsets, modelling Python `sorted`. -/
def sortNat (l : List Nat) : List Nat :=
  sortLe (fun a b => decide (a ≤ b)) l

/-- Model of `Tag.create_pairs`: sort both offset lists ascending and pair
index-for-index up to the minimum of the two lengths. -/
def create_pairs (starts ends : List Nat) : List (Nat × Nat) :=
  let start_sorted := sortNat starts
  let end_sorted := sortNat ends
  let pair_count := min start_sorted.length end_sorted.length
  (List.range pair_count).map (fun i => (start_sorted.getD i 0, end_sorted.getD i 0))

theorem sortNat_pairwise (l : List Nat) :
    List.Pairwise (fun a b => a ≤ b) (sortNat l) := by
  have h := sortLe_pairwise (fun a b : Nat => decide (a ≤ b))
    (fun a b => by rcases Nat.le_total a b with h | h <;> simp [h])
    (fun a b c hab hbc => by
      simp only [decide_eq_true_eq] at *
      exact Nat.le_trans hab hbc) l
  exact h.imp (fun {a b} hab => by simpa using hab)

/-- Indexing `List.range` into two lists is exactly `List.zip`. -/
theorem range_map_getD_eq_zip (l1 : List Nat) (l2 : List Nat) :
    (List.range (min l1.length l2.length)).map (fun i => (l1.getD i 0, l2.getD i 0))
      = List.zip l1 l2 := by
  induction l1 generalizing l2 with
  | nil => simp
  | cons a as ih =>
    cases l2 with
    | nil => simp
    | cons b bs =>
      have hmin : min (a :: as).length (b :: bs).length = min as.length bs.length + 1 := by
        simp [List.length_cons, Nat.succ_min_succ]
      rw [hmin, List.range_succ_eq_map, List.map_cons, List.map_map]
      simp only [List.zip_cons_cons]
      congr 1
      rw [← ih bs]
      apply List.map_congr_left
      intro i _
      simp [List.getD_cons_succ]

theorem create_pairs_eq_zip (starts ends : List Nat) :
    create_pairs starts ends = List.zip (sortNat starts) (sortNat ends) := by
  unfold create_pairs
  exact range_map_getD_eq_zip (sortNat starts) (sortNat ends)

theorem create_pairs_length (starts ends : List Nat) :
    (create_pairs starts ends).length = min starts.length ends.length := by
  rw [create_pairs_eq_zip, List.length_zip, sortNat, sortLe_length, sortNat, sortLe_length]

/-! ### Tag objects and the document tagger (src/models/adhyaya.py) -/

/-- Model of the `Tag` object: raw name, accumulated offsets, matched pairs,
and the classified topic/subject fields computed from the name. -/
structure Tag where
  name : List Char
  start_positions : List Nat
  end_positions : List Nat
  pairs : List (Nat × Nat)
  main_topics : List (List Char)
  subject_info : List (List Char)
deriving DecidableEq

/-- Model of `Tag(name, start_position)`: a fresh tag created at an opening
marker occurrence. -/
def Tag.mk_open (name : List Char) (pos : Nat) : Tag :=
  let ms := process_tag_content name
  { name := name, start_positions := [pos], end_positions := [], pairs := [],
    main_topics := ms.1, subject_info := ms.2 }

/-- Model of `Tag(name)` followed by `add_end_position`: a fresh tag created
at a closing marker occurrence. -/
def Tag.mk_close (name : List Char) (pos : Nat) : Tag :=
  let ms := process_tag_content name
  { name := name, start_positions := [], end_positions := [pos], pairs := [],
    main_topics := ms.1, subject_info := ms.2 }

/-- Model of one opening-marker step of `AdhyayaTags._find_tags`: append the
start offset to the existing tag of that name, or create a new tag. -/
def add_open : List Tag → List Char → Nat → List Tag
  | [], n, p => [Tag.mk_open n p]
  | t :: ts, n, p =>
    if t.name = n then { t with start_positions := t.start_positions ++ [p] } :: ts
    else t :: add_open ts n p

/-- Model of one closing-marker step of `AdhyayaTags._find_tags`. -/
def add_close : List Tag → List Char → Nat → List Tag
  | [], n, p => [Tag.mk_close n p]
  | t :: ts, n, p =>
    if t.name = n then { t with end_positions := t.end_positions ++ [p] } :: ts
    else t :: add_close ts n p

/-- Model of `AdhyayaTags._find_tags`: fold all opening occurrences, then all
closing occurrences, into a list of tags grouped by exact raw name. -/
def find_tags (opens closes : List (List Char × Nat)) : List Tag :=
  closes.foldl (fun ts c => add_close ts c.1 c.2)
    (opens.foldl (fun ts o => add_open ts o.1 o.2) [])

/-- Model of `AdhyayaTags._match_tags`: run `create_pairs` on every tag. -/
def match_tags (tags : List Tag) : List Tag :=
  tags.map (fun t => { t with pairs := create_pairs t.start_positions t.end_positions })

/-- Model of the full per-document tag pipeline `_find_tags` + `_match_tags`. -/
def doc_tags (opens closes : List (List Char × Nat)) : List Tag :=
  match_tags (find_tags opens closes)

/-- Model of `AdhyayaTags._identify_errors` for opening errors: names of tags
with more start positions than end positions. -/
def opening_errors (tags : List Tag) : List (List Char) :=
  (tags.filter (fun t => decide (t.end_positions.length < t.start_positions.length))).map
    (fun t => t.name)

/-- Model of `AdhyayaTags._identify_errors` for closing errors. -/
def closing_errors (tags : List Tag) : List (List Char) :=
  (tags.filter (fun t => decide (t.start_positions.length < t.end_positions.length))).map
    (fun t => t.name)

/-- Model of `AdhyayaTags.get_valid_tag_count`: tags in neither error list
that have at least one pair. -/
def get_valid_tag_count (tags : List Tag) : Nat :=
  (tags.filter (fun t =>
    decide (t.name ∉ opening_errors tags ∧ t.name ∉ closing_errors tags ∧ t.pairs ≠ []))).length

/-- Model of one tag entry of `AdhyayaTags._generate_organized_tags`. -/
structure TagEntry where
  full_tag : List Char
  subject_info : List (List Char)
  remaining_main_topics : List (List Char)
  start_positions : List Nat
  end_positions : List Nat
  pairs : List (Nat × Nat)
deriving DecidableEq

/-- Build the dictionary entry recorded for a tag instance. -/
def tag_entry (t : Tag) : TagEntry :=
  { full_tag := t.name, subject_info := t.subject_info,
    remaining_main_topics := if 1 < t.main_topics.length then t.main_topics.drop 1 else [],
    start_positions := t.start_positions, end_positions := t.end_positions,
    pairs := t.pairs }

/-- Model of a Python dict insertion `organized[main_topic].append(entry)`
(creating the key when absent). -/
def dict_add (d : List (List Char × List TagEntry)) (k : List Char) (e : TagEntry) :
    List (List Char × List TagEntry) :=
  match d with
  | [] => [(k, [e])]
  | kv :: rest => if kv.1 = k then (kv.1, kv.2 ++ [e]) :: rest else kv :: dict_add rest k e

/-- Model of `AdhyayaTags._generate_organized_tags`. -/
def generate_organized_tags (tags : List Tag) : List (List Char × List TagEntry) :=
  let valid := tags.filter (fun t =>
    decide (t.name ∉ opening_errors tags ∧ t.name ∉ closing_errors tags))
  valid.foldl
    (fun d t =>
      if t.main_topics = [] then d
      else t.main_topics.foldl (fun d2 mt => dict_add d2 mt (tag_entry t)) d)
    []

/-! ### Invariants of `find_tags` -/

theorem add_open_names (ts : List Tag) (n : List Char) (p : Nat) :
    (add_open ts n p).map Tag.name =
      if n ∈ ts.map Tag.name then ts.map Tag.name else ts.map Tag.name ++ [n] := by
  induction ts with
  | nil => simp [add_open, Tag.mk_open]
  | cons t ts ih =>
    by_cases h : t.name = n
    · simp [add_open, h]
    · have hne : ¬ n = t.name := fun hh => h hh.symm
      simp only [add_open, if_neg h, List.map_cons, ih, List.mem_cons, hne, false_or]
      by_cases hmem : n ∈ ts.map Tag.name
      · simp [hmem]
      · simp [hmem]

theorem add_close_names (ts : List Tag) (n : List Char) (p : Nat) :
    (add_close ts n p).map Tag.name =
      if n ∈ ts.map Tag.name then ts.map Tag.name else ts.map Tag.name ++ [n] := by
  induction ts with
  | nil => simp [add_close, Tag.mk_close]
  | cons t ts ih =>
    by_cases h : t.name = n
    · simp [add_close, h]
    · have hne : ¬ n = t.name := fun hh => h hh.symm
      simp only [add_close, if_neg h, List.map_cons, ih, List.mem_cons, hne, false_or]
      by_cases hmem : n ∈ ts.map Tag.name
      · simp [hmem]
      · simp [hmem]

theorem mem_add_open_names (ts : List Tag) (n : List Char) (p : Nat) (m : List Char) :
    m ∈ (add_open ts n p).map Tag.name ↔ m = n ∨ m ∈ ts.map Tag.name := by
  rw [add_open_names]
  by_cases h : n ∈ ts.map Tag.name
  · rw [if_pos h]
    constructor
    · exact Or.inr
    · rintro (rfl | hm)
      · exact h
      · exact hm
  · rw [if_neg h]
    simp [List.mem_append, or_comm]

theorem mem_add_close_names (ts : List Tag) (n : List Char) (p : Nat) (m : List Char) :
    m ∈ (add_close ts n p).map Tag.name ↔ m = n ∨ m ∈ ts.map Tag.name := by
  rw [add_close_names]
  by_cases h : n ∈ ts.map Tag.name
  · rw [if_pos h]
    constructor
    · exact Or.inr
    · rintro (rfl | hm)
      · exact h
      · exact hm
  · rw [if_neg h]
    simp [List.mem_append, or_comm]

theorem add_open_nodup (ts : List Tag) (n : List Char) (p : Nat)
    (h : (ts.map Tag.name).Nodup) : ((add_open ts n p).map Tag.name).Nodup := by
  rw [add_open_names]
  by_cases hm : n ∈ ts.map Tag.name
  · rw [if_pos hm]; exact h
  · rw [if_neg hm]
    simp [List.nodup_append, h, hm]

theorem add_close_nodup (ts : List Tag) (n : List Char) (p : Nat)
    (h : (ts.map Tag.name).Nodup) : ((add_close ts n p).map Tag.name).Nodup := by
  rw [add_close_names]
  by_cases hm : n ∈ ts.map Tag.name
  · rw [if_pos hm]; exact h
  · rw [if_neg hm]
    simp [List.nodup_append, h, hm]

/-- Every tag created or updated by the tagger has at least one recorded
marker occurrence. -/
def tag_nonempty (t : Tag) : Prop :=
  t.start_positions ≠ [] ∨ t.end_positions ≠ []

theorem add_open_nonempty (ts : List Tag) (n : List Char) (p : Nat)
    (h : ∀ t ∈ ts, tag_nonempty t) : ∀ t ∈ add_open ts n p, tag_nonempty t := by
  induction ts with
  | nil =>
    intro t ht
    simp only [add_open, List.mem_singleton] at ht
    subst ht
    left
    simp [Tag.mk_open]
  | cons u ts ih =>
    intro t ht
    by_cases h2 : u.name = n
    · simp only [add_open, if_pos h2, List.mem_cons] at ht
      rcases ht with rfl | ht
      · left; simp
      · exact h t (List.mem_cons_of_mem u ht)
    · simp only [add_open, if_neg h2, List.mem_cons] at ht
      rcases ht with rfl | ht
      · exact h t (List.mem_cons_self t ts)
      · exact ih (fun v hv => h v (List.mem_cons_of_mem u hv)) t ht

theorem add_close_nonempty (ts : List Tag) (n : List Char) (p : Nat)
    (h : ∀ t ∈ ts, tag_nonempty t) : ∀ t ∈ add_close ts n p, tag_nonempty t := by
  induction ts with
  | nil =>
    intro t ht
    simp only [add_close, List.mem_singleton] at ht
    subst ht
    right
    simp [Tag.mk_close]
  | cons u ts ih =>
    intro t ht
    by_cases h2 : u.name = n
    · simp only [add_close, if_pos h2, List.mem_cons] at ht
      rcases ht with rfl | ht
      · right; simp
      · exact h t (List.mem_cons_of_mem u ht)
    · simp only [add_close, if_neg h2, List.mem_cons] at ht
      rcases ht with rfl | ht
      · exact h t (List.mem_cons_self t ts)
      · exact ih (fun v hv => h v (List.mem_cons_of_mem u hv)) t ht

theorem foldl_add_open_nodup (os : List (List Char × Nat)) (ts : List Tag)
    (h : (ts.map Tag.name).Nodup) :
    (((os.foldl (fun a o => add_open a o.1 o.2) ts)).map Tag.name).Nodup := by
  induction os generalizing ts with
  | nil => exact h
  | cons o os ih => exact ih _ (add_open_nodup ts o.1 o.2 h)

theorem foldl_add_close_nodup (os : List (List Char × Nat)) (ts : List Tag)
    (h : (ts.map Tag.name).Nodup) :
    (((os.foldl (fun a o => add_close a o.1 o.2) ts)).map Tag.name).Nodup := by
  induction os generalizing ts with
  | nil => exact h
  | cons o os ih => exact ih _ (add_close_nodup ts o.1 o.2 h)

theorem foldl_add_open_nonempty (os : List (List Char × Nat)) (ts : List Tag)
    (h : ∀ t ∈ ts, tag_nonempty t) :
    ∀ t ∈ os.foldl (fun a o => add_open a o.1 o.2) ts, tag_nonempty t := by
  induction os generalizing ts with
  | nil => exact h
  | cons o os ih => exact ih _ (add_open_nonempty ts o.1 o.2 h)

theorem foldl_add_close_nonempty (os : List (List Char × Nat)) (ts : List Tag)
    (h : ∀ t ∈ ts, tag_nonempty t) :
    ∀ t ∈ os.foldl (fun a o => add_close a o.1 o.2) ts, tag_nonempty t := by
  induction os generalizing ts with
  | nil => exact h
  | cons o os ih => exact ih _ (add_close_nonempty ts o.1 o.2 h)

theorem foldl_add_open_mem_names (os : List (List Char × Nat)) (ts : List Tag)
    (m : List Char) :
    m ∈ (os.foldl (fun a o => add_open a o.1 o.2) ts).map Tag.name ↔
      m ∈ ts.map Tag.name ∨ m ∈ os.map Prod.fst := by
  induction os generalizing ts with
  | nil => simp
  | cons o os ih =>
    simp only [List.foldl_cons, ih, mem_add_open_names, List.map_cons, List.mem_cons]
    tauto

theorem foldl_add_close_mem_names (os : List (List Char × Nat)) (ts : List Tag)
    (m : List Char) :
    m ∈ (os.foldl (fun a o => add_close a o.1 o.2) ts).map Tag.name ↔
      m ∈ ts.map Tag.name ∨ m ∈ os.map Prod.fst := by
  induction os generalizing ts with
  | nil => simp
  | cons o os ih =>
    simp only [List.foldl_cons, ih, mem_add_close_names, List.map_cons, List.mem_cons]
    tauto

theorem find_tags_nodup (opens closes : List (List Char × Nat)) :
    ((find_tags opens closes).map Tag.name).Nodup :=
  foldl_add_close_nodup closes _ (foldl_add_open_nodup opens [] (by simp))

theorem find_tags_nonempty (opens closes : List (List Char × Nat)) :
    ∀ t ∈ find_tags opens closes, tag_nonempty t :=
  foldl_add_close_nonempty closes _ (foldl_add_open_nonempty opens [] (by simp))

theorem find_tags_mem_names (opens closes : List (List Char × Nat)) (m : List Char) :
    m ∈ (find_tags opens closes).map Tag.name ↔
      m ∈ opens.map Prod.fst ∨ m ∈ closes.map Prod.fst := by
  unfold find_tags
  rw [foldl_add_close_mem_names, foldl_add_open_mem_names]
  simp [or_comm]

theorem match_tags_names (tags : List Tag) :
    (match_tags tags).map Tag.name = tags.map Tag.name := by
  unfold match_tags
  rw [List.map_map]
  rfl

theorem match_tags_nonempty (tags : List Tag) (h : ∀ t ∈ tags, tag_nonempty t) :
    ∀ t ∈ match_tags tags, tag_nonempty t := by
  intro t ht
  obtain ⟨u, hu, rfl⟩ := List.mem_map.mp ht
  exact h u hu

theorem match_tags_pairs (tags : List Tag) :
    ∀ t ∈ match_tags tags, t.pairs = create_pairs t.start_positions t.end_positions := by
  intro t ht
  obtain ⟨u, hu, rfl⟩ := List.mem_map.mp ht
  rfl

theorem doc_tags_nodup (opens closes : List (List Char × Nat)) :
    ((doc_tags opens closes).map Tag.name).Nodup := by
  unfold doc_tags
  rw [match_tags_names]
  exact find_tags_nodup opens closes

theorem doc_tags_mem_names (opens closes : List (List Char × Nat)) (m : List Char) :
    m ∈ (doc_tags opens closes).map Tag.name ↔
      m ∈ opens.map Prod.fst ∨ m ∈ closes.map Prod.fst := by
  unfold doc_tags
  rw [match_tags_names]
  exact find_tags_mem_names opens closes m

theorem doc_tags_nonempty (opens closes : List (List Char × Nat)) :
    ∀ t ∈ doc_tags opens closes, tag_nonempty t :=
  match_tags_nonempty _ (find_tags_nonempty opens closes)

theorem doc_tags_pairs (opens closes : List (List Char × Nat)) :
    ∀ t ∈ doc_tags opens closes,
      t.pairs = create_pairs t.start_positions t.end_positions :=
  match_tags_pairs _

/-- Under distinct names, membership in `opening_errors` is exactly the
per-tag count condition. -/
theorem mem_opening_errors_iff (tags : List Tag) (hnd : (tags.map Tag.name).Nodup)
    (t : Tag) (ht : t ∈ tags) :
    t.name ∈ opening_errors tags ↔
      t.end_positions.length < t.start_positions.length := by
  constructor
  · intro hm
    obtain ⟨u, hu, hname⟩ := List.mem_map.mp hm
    have hu2 : u ∈ tags := List.mem_of_mem_filter hu
    have hpu := (List.mem_filter.mp hu).2
    have hut : u = t := List.inj_on_of_nodup_map hnd hu2 ht hname
    subst hut
    simpa using hpu
  · intro hlt
    exact List.mem_map.mpr ⟨t, List.mem_filter.mpr ⟨ht, by simpa using hlt⟩, rfl⟩

theorem mem_closing_errors_iff (tags : List Tag) (hnd : (tags.map Tag.name).Nodup)
    (t : Tag) (ht : t ∈ tags) :
    t.name ∈ closing_errors tags ↔
      t.start_positions.length < t.end_positions.length := by
  constructor
  · intro hm
    obtain ⟨u, hu, hname⟩ := List.mem_map.mp hm
    have hu2 : u ∈ tags := List.mem_of_mem_filter hu
    have hpu := (List.mem_filter.mp hu).2
    have hut : u = t := List.inj_on_of_nodup_map hnd hu2 ht hname
    subst hut
    simpa using hpu
  · intro hlt
    exact List.mem_map.mpr ⟨t, List.mem_filter.mpr ⟨ht, by simpa using hlt⟩, rfl⟩

theorem zip_map_fst_take (l1 : List α) (l2 : List β) :
    (List.zip l1 l2).map Prod.fst = l1.take l2.length := by
  induction l1 generalizing l2 with
  | nil => simp
  | cons a as ih =>
    cases l2 with
    | nil => simp
    | cons b bs => simp [ih]

theorem zip_map_snd_take (l1 : List α) (l2 : List β) :
    (List.zip l1 l2).map Prod.snd = l2.take l1.length := by
  induction l1 generalizing l2 with
  | nil => simp
  | cons a as ih =>
    cases l2 with
    | nil => simp
    | cons b bs => simp [ih]

theorem sortNat_length (l : List Nat) : (sortNat l).length = l.length :=
  sortLe_length _ l

theorem sortNat_perm (l : List Nat) : List.Perm (sortNat l) l :=
  sortLe_perm _ l

/-- C5: the Span Matcher's pairs are the index-for-index zip of the
ascending-sorted start offsets with the ascending-sorted end offsets,
truncated to the minimum length; `len(pairs) = min(len(starts), len(ends))`
always holds, and with equal counts `n` there are exactly `n` pairs and the
paired first (resp. second) components are a permutation of the recorded
start (resp. end) offsets, so every recorded offset appears in exactly one
pair. -/
theorem C5_span_matcher_positional_zip : ∀ starts ends : List Nat,
    create_pairs starts ends = List.zip (sortNat starts) (sortNat ends) ∧
    List.Pairwise (fun a b => a ≤ b) (sortNat starts) ∧
    List.Pairwise (fun a b => a ≤ b) (sortNat ends) ∧
    (create_pairs starts ends).length = min starts.length ends.length ∧
    (starts.length = ends.length →
      (create_pairs starts ends).length = starts.length ∧
      List.Perm ((create_pairs starts ends).map Prod.fst) starts ∧
      List.Perm ((create_pairs starts ends).map Prod.snd) ends) := by
  intro starts ends
  refine ⟨create_pairs_eq_zip starts ends, sortNat_pairwise starts, sortNat_pairwise ends,
    create_pairs_length starts ends, ?_⟩
  intro hlen
  refine ⟨by rw [create_pairs_length, hlen, Nat.min_self], ?_, ?_⟩
  · rw [create_pairs_eq_zip, zip_map_fst_take, sortNat_length, ← hlen, ← sortNat_length,
      List.take_length]
    exact sortNat_perm starts
  · rw [create_pairs_eq_zip, zip_map_snd_take, sortNat_length, hlen, ← sortNat_length,
      List.take_length]
    exact sortNat_perm ends

/-- Witness for C5 at a concrete input with equal counts. -/
theorem C5_span_matcher_positional_zip_witness :
    List.Perm ((create_pairs [3, 1] [4, 2]).map Prod.fst) [3, 1] :=
  ((C5_span_matcher_positional_zip [3, 1] [4, 2]).2.2.2.2 rfl).2.1

/-- Three mutually exclusive, jointly exhaustive boolean predicates split a
list's length. -/
theorem filter_three_partition (l : List α) (p q r : α → Bool)
    (h : ∀ x ∈ l, (p x = true ∧ q x = false ∧ r x = false) ∨
                  (p x = false ∧ q x = true ∧ r x = false) ∨
                  (p x = false ∧ q x = false ∧ r x = true)) :
    (l.filter p).length + (l.filter q).length + (l.filter r).length = l.length := by
  induction l with
  | nil => simp
  | cons a l ih =>
    have ha := h a (List.mem_cons_self a l)
    have ih2 := ih (fun x hx => h x (List.mem_cons_of_mem a hx))
    rcases ha with ⟨h1, h2, h3⟩ | ⟨h1, h2, h3⟩ | ⟨h1, h2, h3⟩ <;>
      simp [List.filter_cons, h1, h2, h3] <;> omega

/-- C7: in every document the distinct raw tag names split exactly into
opening errors, closing errors, and valid tags with at least one pair; the
tagger produces one tag per distinct raw name occurring in the document. -/
theorem C7_error_valid_partition : ∀ opens closes : List (List Char × Nat),
    (opening_errors (doc_tags opens closes)).length
        + (closing_errors (doc_tags opens closes)).length
        + get_valid_tag_count (doc_tags opens closes)
      = (doc_tags opens closes).length ∧
    ((doc_tags opens closes).map Tag.name).Nodup ∧
    (∀ m, m ∈ (doc_tags opens closes).map Tag.name ↔
      m ∈ opens.map Prod.fst ∨ m ∈ closes.map Prod.fst) := by
  intro opens closes
  have hnd := doc_tags_nodup opens closes
  refine ⟨?_, hnd, fun m => doc_tags_mem_names opens closes m⟩
  have hOE : (opening_errors (doc_tags opens closes)).length
      = ((doc_tags opens closes).filter
          (fun t => decide (t.end_positions.length < t.start_positions.length))).length := by
    unfold opening_errors
    rw [List.length_map]
  have hCE : (closing_errors (doc_tags opens closes)).length
      = ((doc_tags opens closes).filter
          (fun t => decide (t.start_positions.length < t.end_positions.length))).length := by
    unfold closing_errors
    rw [List.length_map]
  rw [hOE, hCE]
  unfold get_valid_tag_count
  apply filter_three_partition
  intro t ht
  have hne := doc_tags_nonempty opens closes t ht
  have hp : t.pairs.length = min t.start_positions.length t.end_positions.length := by
    rw [doc_tags_pairs opens closes t ht, create_pairs_length]
  rcases Nat.lt_trichotomy t.end_positions.length t.start_positions.length with hlt | heq | hgt
  · left
    refine ⟨decide_eq_true hlt, decide_eq_false (Nat.lt_asymm hlt), decide_eq_false ?_⟩
    rintro ⟨h1, -, -⟩
    exact h1 ((mem_opening_errors_iff _ hnd t ht).mpr hlt)
  · right; right
    refine ⟨decide_eq_false (by omega), decide_eq_false (by omega), decide_eq_true ?_⟩
    refine ⟨?_, ?_, ?_⟩
    · intro hmem
      have := (mem_opening_errors_iff _ hnd t ht).mp hmem
      omega
    · intro hmem
      have := (mem_closing_errors_iff _ hnd t ht).mp hmem
      omega
    · intro hnil
      have hz : t.pairs.length = 0 := by rw [hnil]; rfl
      have hs : t.start_positions.length = 0 := by omega
      have he : t.end_positions.length = 0 := by omega
      rcases hne with hx | hx
      · exact hx (List.eq_nil_of_length_eq_zero hs)
      · exact hx (List.eq_nil_of_length_eq_zero he)
  · right; left
    refine ⟨decide_eq_false (Nat.lt_asymm hgt), decide_eq_true hgt, decide_eq_false ?_⟩
    rintro ⟨-, h2, -⟩
    exact h2 ((mem_closing_errors_iff _ hnd t ht).mpr hgt)

/-- Witness for C7: the partition instantiated at a concrete document with an
opening-error tag, a closing-error tag and one valid tag. -/
theorem C7_error_valid_partition_witness :
    (opening_errors (doc_tags [(['a'], 1), (['b'], 2), (['b'], 10)] [(['b'], 6), (['c'], 7)])).length
        + (closing_errors (doc_tags [(['a'], 1), (['b'], 2), (['b'], 10)] [(['b'], 6), (['c'], 7)])).length
        + get_valid_tag_count (doc_tags [(['a'], 1), (['b'], 2), (['b'], 10)] [(['b'], 6), (['c'], 7)])
      = (doc_tags [(['a'], 1), (['b'], 2), (['b'], 10)] [(['b'], 6), (['c'], 7)]).length :=
  (C7_error_valid_partition [(['a'], 1), (['b'], 2), (['b'], 10)] [(['b'], 6), (['c'], 7)]).1

/-- A valid (error-free) tag of a document always has at least one pair. -/
theorem doc_valid_pairs_ne_nil (opens closes : List (List Char × Nat)) (t : Tag)
    (ht : t ∈ doc_tags opens closes)
    (h1 : t.name ∉ opening_errors (doc_tags opens closes))
    (h2 : t.name ∉ closing_errors (doc_tags opens closes)) :
    t.pairs ≠ [] := by
  have hnd := doc_tags_nodup opens closes
  have hne := doc_tags_nonempty opens closes t ht
  have hp : t.pairs.length = min t.start_positions.length t.end_positions.length := by
    rw [doc_tags_pairs opens closes t ht, create_pairs_length]
  have hle1 : ¬ t.end_positions.length < t.start_positions.length :=
    fun hlt => h1 ((mem_opening_errors_iff _ hnd t ht).mpr hlt)
  have hle2 : ¬ t.start_positions.length < t.end_positions.length :=
    fun hlt => h2 ((mem_closing_errors_iff _ hnd t ht).mpr hlt)
  intro hnil
  have hz : t.pairs.length = 0 := by rw [hnil]; rfl
  have hs : t.start_positions.length = 0 := by omega
  have he : t.end_positions.length = 0 := by omega
  rcases hne with hx | hx
  · exact hx (List.eq_nil_of_length_eq_zero hs)
  · exact hx (List.eq_nil_of_length_eq_zero he)

theorem dict_add_inv (P : TagEntry → Prop) (d : List (List Char × List TagEntry))
    (k : List Char) (e : TagEntry)
    (hd : ∀ kv ∈ d, ∀ x ∈ kv.2, P x) (he : P e) :
    ∀ kv ∈ dict_add d k e, ∀ x ∈ kv.2, P x := by
  induction d with
  | nil =>
    intro kv hkv x hx
    simp only [dict_add, List.mem_singleton] at hkv
    subst hkv
    simp only [List.mem_singleton] at hx
    subst hx
    exact he
  | cons kv0 d ih =>
    intro kv hkv x hx
    by_cases hk : kv0.1 = k
    · simp only [dict_add, if_pos hk, List.mem_cons] at hkv
      rcases hkv with rfl | hkv
      · simp only [List.mem_append, List.mem_singleton] at hx
        rcases hx with hx | rfl
        · exact hd kv0 (List.mem_cons_self kv0 d) x hx
        · exact he
      · exact hd kv (List.mem_cons_of_mem kv0 hkv) x hx
    · simp only [dict_add, if_neg hk, List.mem_cons] at hkv
      rcases hkv with rfl | hkv
      · exact hd kv (List.mem_cons_self kv d) x hx
      · exact ih (fun kv2 hkv2 => hd kv2 (List.mem_cons_of_mem kv0 hkv2)) kv hkv x hx

theorem foldl_dict_add_inv (P : TagEntry → Prop) (mts : List (List Char))
    (d : List (List Char × List TagEntry)) (e : TagEntry)
    (hd : ∀ kv ∈ d, ∀ x ∈ kv.2, P x) (he : P e) :
    ∀ kv ∈ mts.foldl (fun d2 mt => dict_add d2 mt e) d, ∀ x ∈ kv.2, P x := by
  induction mts generalizing d with
  | nil => exact hd
  | cons mt mts ih => exact ih _ (dict_add_inv P d mt e hd he)

theorem foldl_organized_inv (P : TagEntry → Prop) (ts : List Tag)
    (d : List (List Char × List TagEntry))
    (hd : ∀ kv ∈ d, ∀ x ∈ kv.2, P x)
    (hts : ∀ t ∈ ts, P (tag_entry t)) :
    ∀ kv ∈ ts.foldl
        (fun d2 t =>
          if t.main_topics = [] then d2
          else t.main_topics.foldl (fun d3 mt => dict_add d3 mt (tag_entry t)) d2)
        d,
      ∀ x ∈ kv.2, P x := by
  induction ts generalizing d with
  | nil => exact hd
  | cons t ts ih =>
    simp only [List.foldl_cons]
    by_cases hmt : t.main_topics = []
    · rw [if_pos hmt]
      exact ih _ hd (fun u hu => hts u (List.mem_cons_of_mem t hu))
    · rw [if_neg hmt]
      exact ih _
        (foldl_dict_add_inv P t.main_topics d (tag_entry t) hd
          (hts t (List.mem_cons_self t ts)))
        (fun u hu => hts u (List.mem_cons_of_mem t hu))

/-- C9: every tag entry listed under any main-topic key of the document's
`organized_tags` has at least one pair; tags with zero pairs never appear. -/
theorem C9_organized_tags_have_pairs : ∀ opens closes : List (List Char × Nat),
    ∀ k es, (k, es) ∈ generate_organized_tags (doc_tags opens closes) →
    ∀ e ∈ es, e.pairs ≠ [] := by
  intro opens closes k es hkes e he
  unfold generate_organized_tags at hkes
  have hmain : ∀ kv ∈ generate_organized_tags (doc_tags opens closes),
      ∀ x ∈ kv.2, x.pairs ≠ [] := by
    unfold generate_organized_tags
    apply foldl_organized_inv (fun x => x.pairs ≠ [])
    · intro kv hkv
      simp at hkv
    · intro t ht
      have ht2 := List.mem_of_mem_filter ht
      have hcond := (List.mem_filter.mp ht).2
      rw [decide_eq_true_eq] at hcond
      exact doc_valid_pairs_ne_nil opens closes t ht2 hcond.1 hcond.2
  exact hmain (k, es) (by unfold generate_organized_tags; exact hkes) e he

/-- Witness for C9: a concrete document whose organized tags carry a pair. -/
theorem C9_organized_tags_have_pairs_witness :
    (⟨['a'], [], [], [2], [7], [(2, 7)]⟩ : TagEntry).pairs ≠ [] :=
  C9_organized_tags_have_pairs [(['a'], 2)] [(['a'], 7)] ['a']
    [⟨['a'], [], [], [2], [7], [(2, 7)]⟩] (by decide)
    ⟨['a'], [], [], [2], [7], [(2, 7)]⟩ (by decide)

/-! ### Unpaired starts recorded by the indexer
(`RamayanaIndexer._process_adhyaya`, src/services/indexer.py) -/

/-- Model of the indexer's opening-error occurrence filter: start positions
recorded when the tag has more starts than ends and the position is not the
first element of any pair. -/
def unpaired_starts (t : Tag) : List Nat :=
  t.start_positions.filter (fun p =>
    decide (t.end_positions.length < t.start_positions.length ∧
      p ∉ t.pairs.map Prod.fst))

theorem create_pairs_map_fst (starts ends : List Nat) :
    (create_pairs starts ends).map Prod.fst = (sortNat starts).take ends.length := by
  rw [create_pairs_eq_zip, zip_map_fst_take, sortNat_length]

theorem filter_not_mem_append (A B : List Nat) (hdisj : A.Disjoint B) :
    (A ++ B).filter (fun p => decide (p ∉ A)) = B := by
  rw [List.filter_append]
  have h1 : A.filter (fun p => decide (p ∉ A)) = [] := by
    apply List.filter_eq_nil_iff.mpr
    intro a ha
    simp only [decide_eq_true_eq, Decidable.not_not]
    exact ha
  have h2 : B.filter (fun p => decide (p ∉ A)) = B := by
    apply List.filter_eq_self.mpr
    intro a ha
    simp only [decide_eq_true_eq]
    intro hmem
    exact hdisj hmem ha
  rw [h1, h2, List.nil_append]

/-- C6 (amended): a tag is an opening error iff it has more starts than ends,
a closing error iff fewer, neither when equal; and in the opening-error case
the unpaired starts are the tag's trailing (latest) starts: the sorted start
list with its first `len(ends)` (paired) elements removed. -/
theorem C6_error_classification_trailing :
    ∀ opens closes : List (List Char × Nat), ∀ t ∈ doc_tags opens closes,
    (t.name ∈ opening_errors (doc_tags opens closes) ↔
      t.end_positions.length < t.start_positions.length) ∧
    (t.name ∈ closing_errors (doc_tags opens closes) ↔
      t.start_positions.length < t.end_positions.length) ∧
    (t.start_positions.length = t.end_positions.length →
      t.name ∉ opening_errors (doc_tags opens closes) ∧
      t.name ∉ closing_errors (doc_tags opens closes)) ∧
    (t.start_positions.Nodup →
      t.end_positions.length < t.start_positions.length →
      List.Perm (unpaired_starts t)
        ((sortNat t.start_positions).drop t.end_positions.length)) := by
  intro opens closes t ht
  have hnd := doc_tags_nodup opens closes
  refine ⟨mem_opening_errors_iff _ hnd t ht, mem_closing_errors_iff _ hnd t ht, ?_, ?_⟩
  · intro heq
    constructor
    · intro hmem
      have := (mem_opening_errors_iff _ hnd t ht).mp hmem
      omega
    · intro hmem
      have := (mem_closing_errors_iff _ hnd t ht).mp hmem
      omega
  · intro hnodup hlt
    have hfst : t.pairs.map Prod.fst = (sortNat t.start_positions).take t.end_positions.length := by
      rw [doc_tags_pairs opens closes t ht, create_pairs_map_fst]
    have hpred : ∀ x ∈ t.start_positions,
        (decide (t.end_positions.length < t.start_positions.length ∧
          x ∉ t.pairs.map Prod.fst))
        = decide (x ∉ (sortNat t.start_positions).take t.end_positions.length) := by
      intro x _
      rw [hfst]
      exact decide_eq_decide.mpr (and_iff_right hlt)
    have hstep1 : unpaired_starts t
        = t.start_positions.filter
            (fun p => decide (p ∉ (sortNat t.start_positions).take t.end_positions.length)) := by
      unfold unpaired_starts
      exact List.filter_congr hpred
    have hperm1 : List.Perm
        (t.start_positions.filter
          (fun p => decide (p ∉ (sortNat t.start_positions).take t.end_positions.length)))
        ((sortNat t.start_positions).filter
          (fun p => decide (p ∉ (sortNat t.start_positions).take t.end_positions.length))) :=
      ((sortNat_perm t.start_positions).filter _).symm
    have hnodup2 : (sortNat t.start_positions).Nodup :=
      ((sortNat_perm t.start_positions).nodup_iff).mpr hnodup
    have hsplit := List.take_append_drop t.end_positions.length (sortNat t.start_positions)
    have hdisj : ((sortNat t.start_positions).take t.end_positions.length).Disjoint
        ((sortNat t.start_positions).drop t.end_positions.length) := by
      have := hnodup2
      rw [← hsplit] at this
      exact (List.nodup_append.mp this).2.2
    have hAB : (sortNat t.start_positions).filter
        (fun p => decide (p ∉ (sortNat t.start_positions).take t.end_positions.length))
        = ((sortNat t.start_positions).take t.end_positions.length ++
            (sortNat t.start_positions).drop t.end_positions.length).filter
          (fun p => decide (p ∉ (sortNat t.start_positions).take t.end_positions.length)) :=
      congrArg _ hsplit.symm
    have hfilter := filter_not_mem_append
      ((sortNat t.start_positions).take t.end_positions.length)
      ((sortNat t.start_positions).drop t.end_positions.length) hdisj
    rw [hstep1]
    rw [hAB, hfilter] at hperm1
    exact hperm1

/-- Counterexample for C6 as stated: with starts `[1, 5, 9]` and one end
`[3]`, the unpaired starts are `[5, 9]` — the trailing starts — while the
unmatched leading (earliest) starts would be `[1, 5]`. -/
theorem C6_counterexample_leading_starts :
    (doc_tags [(['x'], 1), (['x'], 5), (['x'], 9)] [(['x'], 3)]).map unpaired_starts
        = [[5, 9]] ∧
    (sortNat [1, 5, 9]).take (3 - 1) = [1, 5] ∧
    ¬ List.Perm [5, 9] [1, 5] := by
  refine ⟨by decide, by decide, ?_⟩
  intro h
  have h9 : (9 : Nat) ∈ [1, 5] := h.mem_iff.mp (by decide)
  simp at h9

/-- Witness for C6 (amended) at a concrete opening-error tag. -/
theorem C6_error_classification_trailing_witness :
    List.Perm
      (unpaired_starts ⟨['x'], [1, 5, 9], [3], [(1, 3)], [['x']], []⟩)
      ((sortNat [1, 5, 9]).drop 1) :=
  (C6_error_classification_trailing [(['x'], 1), (['x'], 5), (['x'], 9)] [(['x'], 3)]
      ⟨['x'], [1, 5, 9], [3], [(1, 3)], [['x']], []⟩ (by decide)).2.2.2
    (by decide) (by decide)

/-! ### Classifier claims (src/models/tag.py, `_process_tag_content`) -/

theorem classify_loop_aux (parts : List (List Char)) (m s : List (List Char)) :
    parts.foldl
      (fun acc part =>
        if part.contains ' ' then (acc.1, acc.2 ++ [part]) else (acc.1 ++ [part], acc.2))
      (m, s)
    = (m ++ parts.filter (fun p => !(p.contains ' ')),
       s ++ parts.filter (fun p => p.contains ' ')) := by
  induction parts generalizing m s with
  | nil => simp
  | cons p parts ih =>
    by_cases hp : p.contains ' ' = true
    · simp only [List.foldl_cons, hp, if_true, ih, List.filter_cons, hp, Bool.not_true]
      simp
    · have hp2 : p.contains ' ' = false := by
        cases h : p.contains ' '
        · rfl
        · exact absurd h hp
      simp only [List.foldl_cons, hp2, Bool.false_eq_true, if_false, ih,
        List.filter_cons, Bool.not_false]
      simp [hp2]

theorem classify_loop_filters (parts : List (List Char)) :
    classify_loop parts
      = (parts.filter (fun p => !(p.contains ' ')),
         parts.filter (fun p => p.contains ' ')) := by
  unfold classify_loop
  rw [classify_loop_aux]
  simp

theorem name_ne_nil_of_two_parts (name : List Char)
    (h2 : 2 ≤ (split_parts name).length) : name ≠ [] := by
  intro h
  subst h
  exact absurd h2 (by decide)

/-- C4 (amended): with two or more parts, classification tests only for the
space character U+0020 — a part whose only whitespace is e.g. a tab counts as
whitespace-free and goes to `main_topics`; space-free parts go to
`main_topics` and space-containing parts to `subject_info`, in input order,
after which the single demotion adjustment is applied. -/
theorem C4_classifier_space_only : ∀ name : List Char,
    2 ≤ (split_parts name).length →
    process_tag_content name =
      mt_adjust ((split_parts name).filter (fun p => !(p.contains ' ')),
                 (split_parts name).filter (fun p => p.contains ' ')) := by
  intro name h2
  have hne := name_ne_nil_of_two_parts name h2
  have hlen1 : ¬ (split_parts name).length = 1 := by omega
  simp only [process_tag_content, if_neg hne, if_neg hlen1]
  rw [classify_loop_filters]

/-- Counterexample for C4 as stated: in the tag name `"a\tb;c d;e"` the part
`"a\tb"` contains a whitespace character (a tab) yet ends up in
`main_topics`, not `subject_info`, because the code tests only for spaces. -/
theorem C4_counterexample_tab_part :
    split_parts "a\tb;c d;e".toList = ["a\tb".toList, "c d".toList, "e".toList] ∧
    '\t' ∈ "a\tb".toList ∧
    '\t'.isWhitespace = true ∧
    process_tag_content "a\tb;c d;e".toList
      = (["a\tb".toList, "e".toList], ["c d".toList]) :=
  ⟨by decide, by decide, by decide, by decide⟩

/-- Witness for C4 (amended) at the concrete tag name `"a;b c"`. -/
theorem C4_classifier_space_only_witness :
    process_tag_content "a;b c".toList =
      mt_adjust ((split_parts "a;b c".toList).filter (fun p => !(p.contains ' ')),
                 (split_parts "a;b c".toList).filter (fun p => p.contains ' ')) :=
  C4_classifier_space_only "a;b c".toList (by decide)

/-- C8: whenever classification yields two or more main topics and no subject
info, the last main topic is demoted into subject info, and the adjustment is
applied exactly once — the adjusted result is a fixed point of the
adjustment; in particular the scenario name from the spec yields
`main_topics = ["राक्षसः"]`, `subject_info = ["दुष्टता"]`. -/
theorem C8_demote_last_main_topic_once :
    (∀ name : List Char,
      2 ≤ (split_parts name).length →
      1 < (classify_loop (split_parts name)).1.length →
      (classify_loop (split_parts name)).2 = [] →
      process_tag_content name =
        ((classify_loop (split_parts name)).1.dropLast,
         [(classify_loop (split_parts name)).1.getLastD []]) ∧
      mt_adjust (process_tag_content name) = process_tag_content name) ∧
    process_tag_content "राक्षसः;दुष्टता".toList
      = (["राक्षसः".toList], ["दुष्टता".toList]) := by
  constructor
  · intro name h2 hm hs
    have hne := name_ne_nil_of_two_parts name h2
    have hlen1 : ¬ (split_parts name).length = 1 := by omega
    have hproc : process_tag_content name = mt_adjust (classify_loop (split_parts name)) := by
      simp only [process_tag_content, if_neg hne, if_neg hlen1]
    have hadj : mt_adjust (classify_loop (split_parts name))
        = ((classify_loop (split_parts name)).1.dropLast,
           [(classify_loop (split_parts name)).1.getLastD []]) := by
      unfold mt_adjust
      rw [if_pos ⟨hm, hs⟩, hs, List.nil_append]
    refine ⟨hproc.trans hadj, ?_⟩
    rw [hproc, hadj]
    unfold mt_adjust
    rw [if_neg]
    rintro ⟨-, hfalse⟩
    exact List.cons_ne_nil _ _ hfalse
  · decide

/-- Witness for C8 at the concrete tag name `"a;b"` (two space-free parts,
no subject info before the adjustment). -/
theorem C8_demote_last_main_topic_once_witness :
    process_tag_content "a;b".toList = ([['a']], [['b']]) :=
  ((C8_demote_last_main_topic_once.1 "a;b".toList (by decide) (by decide)
      (by decide)).1).trans (by decide)

/-! ### Highlight positions (`Database._structure_adhyaya_tags`,
src/database/mongodb.py) -/

/-- One flattened highlight position: tag name plus a pair's offsets. -/
structure HighlightPos where
  tag_name : List Char
  start : Nat
  end_ : Nat
deriving DecidableEq

/-- Model of the `highlight_positions` construction: one entry per pair of
every tag of the document (no error filtering), sorted by start offset. -/
def highlight_positions (tags : List Tag) : List HighlightPos :=
  sortLe (fun a b => decide (a.start ≤ b.start))
    (tags.foldl
      (fun acc t => acc ++ t.pairs.map (fun pr => ⟨t.name, pr.1, pr.2⟩)) [])

theorem foldl_append_map {α β : Type} (f : α → List β) (ts : List α) (acc : List β) :
    ts.foldl (fun a t => a ++ f t) acc = acc ++ (ts.map f).flatten := by
  induction ts generalizing acc with
  | nil => simp
  | cons t ts ih => simp [ih, List.append_assoc]

/-- C10: the flattened highlight-position list contains one entry per pair of
every tag of the document — with no error filtering, so a tag classified as
an opening or closing error still contributes all of its pairs. -/
theorem C10_highlights_include_error_tags : ∀ tags : List Tag,
    (highlight_positions tags).length = (tags.map (fun t => t.pairs.length)).sum ∧
    (∀ t ∈ tags, ∀ pr ∈ t.pairs,
      (⟨t.name, pr.1, pr.2⟩ : HighlightPos) ∈ highlight_positions tags) := by
  intro tags
  have hperm := sortLe_perm (fun a b : HighlightPos => decide (a.start ≤ b.start))
    (tags.foldl (fun acc t => acc ++ t.pairs.map (fun pr => ⟨t.name, pr.1, pr.2⟩)) [])
  constructor
  · rw [highlight_positions]
    rw [hperm.length_eq, foldl_append_map, List.nil_append, List.length_flatten]
    rw [List.map_map]
    congr 1
    apply List.map_congr_left
    intro t _
    simp
  · intro t ht pr hpr
    rw [highlight_positions, hperm.mem_iff, foldl_append_map, List.nil_append,
      List.mem_flatten]
    refine ⟨t.pairs.map (fun pr => ⟨t.name, pr.1, pr.2⟩), List.mem_map_of_mem _ ht, ?_⟩
    exact List.mem_map_of_mem _ hpr

/-- Witness for C10: an opening-error tag (two starts, one end) still has its
single pair rendered as a highlight position. -/
theorem C10_highlights_include_error_tags_witness :
    (⟨['x'], [1, 3], [2], [(1, 2)], [['x']], []⟩ : Tag).name
        ∈ opening_errors [⟨['x'], [1, 3], [2], [(1, 2)], [['x']], []⟩] ∧
    (⟨['x'], 1, 2⟩ : HighlightPos)
        ∈ highlight_positions [⟨['x'], [1, 3], [2], [(1, 2)], [['x']], []⟩] :=
  ⟨by decide,
   (C10_highlights_include_error_tags [⟨['x'], [1, 3], [2], [(1, 2)], [['x']], []⟩]).2
     ⟨['x'], [1, 3], [2], [(1, 2)], [['x']], []⟩ (by decide) (1, 2) (by decide)⟩

/-! ### Corpus tag index (`Database.upsert_tag`, src/database/mongodb.py) -/

/-- One occurrence of a tag recorded in the corpus index. -/
structure Occurrence where
  khanda_id : Nat
  adhyaya_id : Nat
  start : Nat
  end_ : Nat
deriving DecidableEq

/-- One document of the Mongo `tags` collection. -/
structure TagIndexEntry where
  name : List Char
  main_topics : List (List Char)
  subject_info : List (List Char)
  occurrences : List Occurrence
deriving DecidableEq

/-- Model of Mongo `$addToSet` with `$each`: append each occurrence not
already present, in order, deduplicating. -/
def add_to_set (old new : List Occurrence) : List Occurrence :=
  new.foldl (fun acc o => if o ∈ acc then acc else acc ++ [o]) old

/-- Model of `update_one({"name": tag_name}, {...}, upsert=True)` on the
matched (first) entry, or document creation when no entry matches. -/
def upsert_go (tag_name : List Char) (main_topics subject_info : List (List Char))
    (occurrences : List Occurrence) : List TagIndexEntry → List TagIndexEntry
  | [] => [{ name := tag_name, main_topics := main_topics, subject_info := subject_info,
             occurrences := add_to_set [] occurrences }]
  | e :: es =>
    if e.name = tag_name then
      { name := tag_name, main_topics := main_topics, subject_info := subject_info,
        occurrences := add_to_set e.occurrences occurrences } :: es
    else e :: upsert_go tag_name main_topics subject_info occurrences es

/-- Model of `Database.upsert_tag`: no-op on an empty occurrence list, else a
`$set` of name/main_topics/subject_info plus `$addToSet` of the occurrences,
with upsert. -/
def upsert_tag (idx : List TagIndexEntry) (tag_name : List Char)
    (main_topics subject_info : List (List Char)) (occurrences : List Occurrence) :
    List TagIndexEntry :=
  if occurrences = [] then idx
  else upsert_go tag_name main_topics subject_info occurrences idx

/-- Model of looking the tag up in the index by name. -/
def find_entry (idx : List TagIndexEntry) (n : List Char) : Option TagIndexEntry :=
  idx.find? (fun e => e.name == n)

theorem mem_add_to_set (old new : List Occurrence) (o : Occurrence) :
    o ∈ add_to_set old new ↔ o ∈ old ∨ o ∈ new := by
  induction new generalizing old with
  | nil => simp [add_to_set]
  | cons x xs ih =>
    show o ∈ add_to_set (if x ∈ old then old else old ++ [x]) xs ↔ _
    rw [ih]
    by_cases hx : x ∈ old
    · rw [if_pos hx]
      constructor
      · rintro (h | h)
        · exact Or.inl h
        · exact Or.inr (List.mem_cons_of_mem x h)
      · rintro (h | h)
        · exact Or.inl h
        · rcases List.mem_cons.mp h with rfl | h
          · exact Or.inl hx
          · exact Or.inr h
    · rw [if_neg hx]
      simp only [List.mem_append, List.mem_singleton, List.mem_cons]
      tauto

/-- Counterexample for C1 as stated: two documents upsert the same raw name
`कथा` with different `main_topics`; the index entry ends up with the SECOND
document's `main_topics`, not the first's, while occurrences accumulate. -/
theorem C1_counterexample_last_writer_wins :
    find_entry
        (upsert_tag
          (upsert_tag [] "कथा".toList ["A".toList] [] [⟨1, 1, 5, 9⟩])
          "कथा".toList ["B".toList] [] [⟨1, 2, 3, 7⟩])
        "कथा".toList
      = some ⟨"कथा".toList, ["B".toList], [], [⟨1, 1, 5, 9⟩, ⟨1, 2, 3, 7⟩]⟩ ∧
    (["B".toList] : List (List Char)) ≠ ["A".toList] := by
  refine ⟨by decide, by decide⟩

/-- C1 (amended): upserting an existing name overwrites `main_topics` and
`subject_info` with the latest writer's values (Mongo `$set`), and merges
occurrences by set union (`$addToSet`): the merged occurrence list holds
exactly the old and the new occurrences. -/
theorem C1_upsert_overwrites_topics_merges_occurrences :
    ∀ (idx : List TagIndexEntry) (n : List Char)
      (m s : List (List Char)) (occs : List Occurrence) (e : TagIndexEntry),
    find_entry idx n = some e → occs ≠ [] →
    find_entry (upsert_tag idx n m s occs) n
        = some { name := n, main_topics := m, subject_info := s,
                 occurrences := add_to_set e.occurrences occs } ∧
    (∀ o, o ∈ add_to_set e.occurrences occs ↔ o ∈ e.occurrences ∨ o ∈ occs) := by
  intro idx n m s occs e hfind hocc
  refine ⟨?_, fun o => mem_add_to_set e.occurrences occs o⟩
  unfold upsert_tag
  rw [if_neg hocc]
  induction idx with
  | nil => simp [find_entry] at hfind
  | cons e0 es ih =>
    by_cases h0 : e0.name = n
    · have he0 : e0 = e := by
        unfold find_entry at hfind
        rw [List.find?_cons_of_pos _ (by simp [h0])] at hfind
        exact Option.some.inj hfind
      subst he0
      show find_entry (upsert_go n m s occs (e0 :: es)) n = _
      unfold upsert_go
      rw [if_pos h0]
      unfold find_entry
      rw [List.find?_cons_of_pos _ (by simp)]
    · have hfind2 : find_entry es n = some e := by
        unfold find_entry at hfind ⊢
        rwa [List.find?_cons_of_neg _ (by simp [h0])] at hfind
      have := ih hfind2
      show find_entry (upsert_go n m s occs (e0 :: es)) n = _
      unfold upsert_go
      rw [if_neg h0]
      unfold find_entry
      rw [List.find?_cons_of_neg _ (by simp [h0])]
      exact this

/-- Witness for C1 (amended) at a concrete one-entry index. -/
theorem C1_upsert_overwrites_topics_merges_occurrences_witness :
    find_entry
        (upsert_tag [⟨"कथा".toList, ["A".toList], [], [⟨1, 1, 5, 9⟩]⟩]
          "कथा".toList ["B".toList] [] [⟨1, 2, 3, 7⟩])
        "कथा".toList
      = some ⟨"कथा".toList, ["B".toList], [], [⟨1, 1, 5, 9⟩, ⟨1, 2, 3, 7⟩]⟩ :=
  ((C1_upsert_overwrites_topics_merges_occurrences
      [⟨"कथा".toList, ["A".toList], [], [⟨1, 1, 5, 9⟩]⟩]
      "कथा".toList ["B".toList] [] [⟨1, 2, 3, 7⟩]
      ⟨"कथा".toList, ["A".toList], [], [⟨1, 1, 5, 9⟩]⟩
      (by decide) (by decide)).1).trans (by decide)

/-! ### Corpus processing order (`RamayanaIndexer.build_indices`,
src/services/indexer.py) -/

/-- Lexicographic code-point comparison of strings, modelling how Python
`sorted` compares the khanda directory name strings. -/
def lexLe : List Char → List Char → Bool
  | [], _ => true
  | _ :: _, [] => false
  | a :: as, b :: bs =>
    if a.toNat < b.toNat then true
    else if b.toNat < a.toNat then false
    else lexLe as bs

theorem lexLe_total : ∀ a b : List Char, lexLe a b = true ∨ lexLe b a = true := by
  intro a
  induction a with
  | nil => intro b; left; rfl
  | cons x xs ih =>
    intro b
    cases b with
    | nil => right; rfl
    | cons y ys =>
      rcases Nat.lt_trichotomy x.toNat y.toNat with h | h | h
      · left; simp [lexLe, h]
      · have h1 : ¬ x.toNat < y.toNat := by omega
        have h2 : ¬ y.toNat < x.toNat := by omega
        rcases ih ys with h3 | h3
        · left; simp [lexLe, h1, h2, h3]
        · right; simp [lexLe, h1, h2, h3]
      · right; simp [lexLe, h]

theorem lexLe_trans : ∀ a b c : List Char,
    lexLe a b = true → lexLe b c = true → lexLe a c = true := by
  intro a
  induction a with
  | nil => intro b c _ _; rfl
  | cons x xs ih =>
    intro b c hab hbc
    cases b with
    | nil => simp [lexLe] at hab
    | cons y ys =>
      cases c with
      | nil => simp [lexLe] at hbc
      | cons z zs =>
        by_cases h1 : x.toNat < y.toNat
        · by_cases h2 : y.toNat < z.toNat
          · have h5 : x.toNat < z.toNat := Nat.lt_trans h1 h2
            simp [lexLe, h5]
          · by_cases h3 : z.toNat < y.toNat
            · simp [lexLe, h2, h3] at hbc
            · have hyz : y.toNat = z.toNat :=
                Nat.le_antisymm (Nat.le_of_not_lt h3) (Nat.le_of_not_lt h2)
              have h5 : x.toNat < z.toNat := hyz ▸ h1
              simp [lexLe, h5]
        · by_cases h4 : y.toNat < x.toNat
          · simp [lexLe, h1, h4] at hab
          · have hxy : x.toNat = y.toNat :=
              Nat.le_antisymm (Nat.le_of_not_lt h4) (Nat.le_of_not_lt h1)
            have hab2 : lexLe xs ys = true := by
              simpa [lexLe, h1, h4] using hab
            by_cases h2 : y.toNat < z.toNat
            · have h5 : x.toNat < z.toNat := hxy ▸ h2
              simp [lexLe, h5]
            · by_cases h3 : z.toNat < y.toNat
              · simp [lexLe, h2, h3] at hbc
              · have hyz : y.toNat = z.toNat :=
                  Nat.le_antisymm (Nat.le_of_not_lt h3) (Nat.le_of_not_lt h2)
                have hbc2 : lexLe ys zs = true := by
                  simpa [lexLe, h2, h3] using hbc
                have hxz : ¬ x.toNat < z.toNat := by omega
                have hzx : ¬ z.toNat < x.toNat := by omega
                simp [lexLe, hxz, hzx, ih ys zs hab2 hbc2]

/-- Model of `int(...)` on a digit run. -/
def digits_to_nat (ds : List Char) : Nat :=
  ds.foldl (fun n c => 10 * n + (c.toNat - '0'.toNat)) 0

/-- Model of `re.match(r"(\d+)_.*", khanda_dir)` plus `int(group(1))`: a
leading digit run followed by an underscore yields the khanda id. -/
def khanda_match (d : List Char) : Option Nat :=
  let ds := d.takeWhile Char.isDigit
  if ds.isEmpty then none
  else
    match d.drop ds.length with
    | '_' :: _ => some (digits_to_nat ds)
    | _ => none

/-- Model of the khanda processing order of `build_indices`: khanda ids in
the order produced by `sorted(...)` over the directory-name strings, skipping
directories that do not match the naming pattern. -/
def khanda_order (dirs : List (List Char)) : List Nat :=
  (sortLe lexLe dirs).filterMap khanda_match

/-- Model of `f.endswith(".txt") and f[:-4].isdigit()`. -/
def is_adhyaya_file (f : List Char) : Bool :=
  decide (f.drop (f.length - 4) = ['.', 't', 'x', 't']) &&
    (!(f.take (f.length - 4)).isEmpty && (f.take (f.length - 4)).all Char.isDigit)

/-- Model of the sort key `int(x[:-4])`. -/
def adhyaya_key (f : List Char) : Nat :=
  digits_to_nat (f.take (f.length - 4))

/-- Model of the adhyaya processing order within one khanda: eligible files
sorted by integer stem, projected to their adhyaya ids. -/
def adhyaya_order (files : List (List Char)) : List Nat :=
  (sortLe (fun a b => decide (adhyaya_key a ≤ adhyaya_key b))
    (files.filter is_adhyaya_file)).map adhyaya_key

/-- Counterexample for C2 as stated: with unit directories `2_a` and `10_b`
(differing digit counts), the khanda processing order is `[10, 2]`, which is
not ascending numeric order. -/
theorem C2_counterexample_digit_counts :
    khanda_order ["2_a".toList, "10_b".toList] = [10, 2] ∧
    ¬ List.Pairwise (fun a b : Nat => a ≤ b)
        (khanda_order ["2_a".toList, "10_b".toList]) := by
  refine ⟨by decide, ?_⟩
  intro h
  rw [show khanda_order ["2_a".toList, "10_b".toList] = [10, 2] from by decide] at h
  obtain ⟨h1, -⟩ := List.pairwise_cons.mp h
  exact absurd (h1 2 (List.mem_singleton.mpr rfl)) (by omega)

/-- C2 (amended): hierarchical units are processed in ascending lexicographic
(code-point) order of their full directory names — which agrees with numeric
order only when the integer prefixes have equal digit counts — and within
each unit the leaf documents are processed in ascending numeric order of
their integer filenames. -/
theorem C2_processing_order :
    ∀ dirs files : List (List Char),
    List.Pairwise (fun a b => lexLe a b = true) (sortLe lexLe dirs) ∧
    List.Pairwise (fun a b : Nat => a ≤ b) (adhyaya_order files) := by
  intro dirs files
  refine ⟨sortLe_pairwise lexLe lexLe_total lexLe_trans dirs, ?_⟩
  have h := sortLe_pairwise (fun a b => decide (adhyaya_key a ≤ adhyaya_key b))
    (fun a b => by
      rcases Nat.le_total (adhyaya_key a) (adhyaya_key b) with h | h <;> simp [h])
    (fun a b c hab hbc => by
      simp only [decide_eq_true_eq] at *
      omega)
    (files.filter is_adhyaya_file)
  unfold adhyaya_order
  rw [List.pairwise_map]
  exact h.imp (fun {a b} hab => by simpa using hab)

/-! ### Highlight renderer (`get_rendered_adhyaya_text`,
src/routes/content.py) -/

/-- Sort comparison modelling `key=lambda x: (x["start"], -x["end"])`. -/
def span_le (a b : HighlightPos) : Bool :=
  decide (a.start < b.start) || (decide (a.start = b.start) && decide (b.end_ ≤ a.end_))

theorem span_le_iff (a b : HighlightPos) :
    span_le a b = true ↔ (a.start < b.start ∨ (a.start = b.start ∧ b.end_ ≤ a.end_)) := by
  simp [span_le]

theorem span_le_total : ∀ a b : HighlightPos,
    span_le a b = true ∨ span_le b a = true := by
  intro a b
  rw [span_le_iff, span_le_iff]
  omega

theorem span_le_trans : ∀ a b c : HighlightPos,
    span_le a b = true → span_le b c = true → span_le a c = true := by
  intro a b c hab hbc
  rw [span_le_iff] at *
  omega

theorem span_le_start_le (a b : HighlightPos) (h : span_le a b = true) :
    a.start ≤ b.start := by
  rw [span_le_iff] at h
  omega

/-- One fragment appended to `html_parts`: literal text, an opening
`<span id="tag-i" class="tagged-text tag-category-..." ...>` marker, or a
closing `</span>` marker. -/
inductive RenderPart where
  | text (s : List Char)
  | openSpan (idx : Nat) (tag : List Char) (category : List Char)
  | closeSpan
deriving DecidableEq

/-- Model of the category lookup: the first `main_topic` of the tag with the
span's name, or `"default"`. -/
def tag_category (tags : List Tag) (n : List Char) : List Char :=
  match tags.find? (fun t => t.name == n) with
  | some t =>
    match t.main_topics with
    | [] => "default".toList
    | c :: _ => c
  | none => "default".toList

/-- Model of the rendering loop: walk the sorted spans, emitting the literal
text up to each span's start and an opening marker, advancing `current_pos`
to the span's start and remembering the open tag. -/
def render_walk (content : List Char) (tags : List Tag) :
    List HighlightPos → Nat → Nat → List RenderPart → List (Nat × Nat) →
    Nat × List RenderPart × List (Nat × Nat)
  | [], _, current, parts, opens => (current, parts, opens)
  | p :: rest, i, current, parts, opens =>
    render_walk content tags rest (i + 1) p.start
      ((if current < p.start then
          parts ++ [RenderPart.text ((content.take p.start).drop current)]
        else parts)
        ++ [RenderPart.openSpan i p.tag_name (tag_category tags p.tag_name)])
      (opens ++ [(i, p.end_)])

/-- The walk over the spans sorted by `(start, -end)`, started at position 0. -/
def render_result (content : List Char) (tags : List Tag)
    (positions : List HighlightPos) : Nat × List RenderPart × List (Nat × Nat) :=
  render_walk content tags (sortLe span_le positions) 0 0 [] []

/-- Model of `get_rendered_adhyaya_text`'s part list: the walk's parts, the
remaining tail text if any, then one closing marker per still-open tag in
reverse open order. -/
def get_rendered_parts (content : List Char) (tags : List Tag)
    (positions : List HighlightPos) : List RenderPart :=
  (if (render_result content tags positions).1 < content.length then
    (render_result content tags positions).2.1
      ++ [RenderPart.text (content.drop (render_result content tags positions).1)]
  else (render_result content tags positions).2.1)
  ++ ((render_result content tags positions).2.2.reverse.map (fun _ => RenderPart.closeSpan))

/-- Concatenation of the literal-text fragments: the rendered output with all
boundary markers stripped. -/
def strip_markers : List RenderPart → List Char
  | [] => []
  | RenderPart.text s :: rest => s ++ strip_markers rest
  | RenderPart.openSpan _ _ _ :: rest => strip_markers rest
  | RenderPart.closeSpan :: rest => strip_markers rest

/-- Model of the final `html_content.replace("\n", "<br/>")` on the literal
text. -/
def replaceNL (s : List Char) : List Char :=
  s.foldr (fun c acc => if c = '\n' then '<' :: 'b' :: 'r' :: '/' :: '>' :: acc else c :: acc) []

/-- The endpoint's output with all boundary markers stripped. -/
def rendered_stripped (content : List Char) (tags : List Tag)
    (positions : List HighlightPos) : List Char :=
  replaceNL (strip_markers (get_rendered_parts content tags positions))

/-- Pairwise non-overlap of matched spans. -/
def spans_nonoverlapping (ps : List HighlightPos) : Prop :=
  List.Pairwise (fun a b => a.end_ ≤ b.start ∨ b.end_ ≤ a.start) ps

theorem strip_markers_append (a b : List RenderPart) :
    strip_markers (a ++ b) = strip_markers a ++ strip_markers b := by
  induction a with
  | nil => simp [strip_markers]
  | cons x xs ih => cases x <;> simp [strip_markers, ih]

theorem strip_markers_closes {α : Type} (l : List α) :
    strip_markers (l.map (fun _ => RenderPart.closeSpan)) = [] := by
  induction l with
  | nil => rfl
  | cons x xs ih => simpa [strip_markers] using ih

theorem take_prefix_extend (content : List Char) (c s : Nat) (h : c ≤ s) :
    content.take c ++ (content.take s).drop c = content.take s := by
  have h1 : (content.take s).take c = content.take c := by
    rw [List.take_take, Nat.min_eq_left h]
  conv_rhs => rw [← List.take_append_drop c (content.take s)]
  rw [h1]

/-- Through the walk the stripped parts are always exactly the prefix of the
document up to the current position. -/
theorem render_walk_strip (content : List Char) (tags : List Tag) :
    ∀ (ss : List HighlightPos) (i c : Nat) (parts : List RenderPart)
      (opens : List (Nat × Nat)),
    (∀ p ∈ ss, c ≤ p.start) →
    List.Pairwise (fun a b : HighlightPos => a.start ≤ b.start) ss →
    strip_markers parts = content.take c →
    strip_markers (render_walk content tags ss i c parts opens).2.1
      = content.take (render_walk content tags ss i c parts opens).1 := by
  intro ss
  induction ss with
  | nil =>
    intro i c parts opens _ _ h3
    exact h3
  | cons p rest ih =>
    intro i c parts opens hmono hpair hstrip
    have hps : c ≤ p.start := hmono p (List.mem_cons_self p rest)
    have hstrip2 : strip_markers
        ((if c < p.start then
            parts ++ [RenderPart.text ((content.take p.start).drop c)]
          else parts)
          ++ [RenderPart.openSpan i p.tag_name (tag_category tags p.tag_name)])
        = content.take p.start := by
      rw [strip_markers_append]
      have hopen : strip_markers [RenderPart.openSpan i p.tag_name
          (tag_category tags p.tag_name)] = [] := rfl
      rw [hopen, List.append_nil]
      by_cases hlt : c < p.start
      · rw [if_pos hlt, strip_markers_append, hstrip]
        have htext : strip_markers [RenderPart.text ((content.take p.start).drop c)]
            = (content.take p.start).drop c := by
          simp [strip_markers]
        rw [htext]
        exact take_prefix_extend content c p.start hps
      · rw [if_neg hlt]
        have hce : c = p.start := Nat.le_antisymm hps (Nat.le_of_not_lt hlt)
        rw [hstrip, hce]
    rw [render_walk]
    exact ih (i + 1) p.start _ _
      (fun q hq => (List.pairwise_cons.mp hpair).1 q hq)
      (List.pairwise_cons.mp hpair).2 hstrip2

/-- Stripping all boundary markers from the rendered parts always recovers
the document text exactly (before the newline replacement). -/
theorem strip_get_rendered_parts (content : List Char) (tags : List Tag)
    (positions : List HighlightPos) :
    strip_markers (get_rendered_parts content tags positions) = content := by
  have hpair0 := sortLe_pairwise span_le span_le_total span_le_trans positions
  have hpair : List.Pairwise (fun a b : HighlightPos => a.start ≤ b.start)
      (sortLe span_le positions) :=
    hpair0.imp (fun {a b} hab => span_le_start_le a b hab)
  have hwalk : strip_markers (render_result content tags positions).2.1
      = content.take (render_result content tags positions).1 :=
    render_walk_strip content tags (sortLe span_le positions) 0 0 [] []
      (fun p _ => Nat.zero_le _) hpair (by simp [strip_markers])
  unfold get_rendered_parts
  rw [strip_markers_append, strip_markers_closes, List.append_nil]
  by_cases hc : (render_result content tags positions).1 < content.length
  · rw [if_pos hc, strip_markers_append, hwalk]
    have htext : strip_markers [RenderPart.text
        (content.drop (render_result content tags positions).1)]
        = content.drop (render_result content tags positions).1 := by
      simp [strip_markers]
    rw [htext]
    exact List.take_append_drop _ content
  · rw [if_neg hc, hwalk]
    exact List.take_of_length_le (Nat.le_of_not_lt hc)

theorem replaceNL_id (s : List Char) (h : '\n' ∉ s) : replaceNL s = s := by
  induction s with
  | nil => rfl
  | cons c cs ih =>
    have hc : ¬ c = '\n' := fun hh => h (hh ▸ List.mem_cons_self c cs)
    have hcs : '\n' ∉ cs := fun hh => h (List.mem_cons_of_mem c hh)
    show (if c = '\n' then _ else c :: replaceNL cs) = c :: cs
    rw [if_neg hc, ih hcs]

/-- C3 (amended): for any spans (in particular pairwise non-overlapping
ones), the rendered output with all boundary markers stripped equals the
original document text with every newline replaced by `<br/>`; it equals the
original text exactly when the document contains no newline. -/
theorem C3_round_trip_modulo_newlines :
    ∀ (content : List Char) (tags : List Tag) (positions : List HighlightPos),
    spans_nonoverlapping positions →
    rendered_stripped content tags positions = replaceNL content ∧
    ('\n' ∉ content → rendered_stripped content tags positions = content) := by
  intro content tags positions _
  have h1 : rendered_stripped content tags positions = replaceNL content := by
    unfold rendered_stripped
    rw [strip_get_rendered_parts]
  exact ⟨h1, fun hnl => h1.trans (replaceNL_id content hnl)⟩

/-- Counterexample for C3 as stated: a document containing a newline and no
spans at all (trivially non-overlapping) renders to `a<br/>b`, which is not
the original text after stripping the boundary markers. -/
theorem C3_counterexample_newline :
    spans_nonoverlapping [] ∧
    rendered_stripped "a\nb".toList [] [] = "a<br/>b".toList ∧
    rendered_stripped "a\nb".toList [] [] ≠ "a\nb".toList :=
  ⟨List.Pairwise.nil, by decide, by decide⟩

/-- Witness for C3 (amended) at a concrete newline-free document with one
span. -/
theorem C3_round_trip_modulo_newlines_witness :
    rendered_stripped "abcd".toList [] [⟨['x'], 1, 3⟩] = "abcd".toList :=
  (C3_round_trip_modulo_newlines "abcd".toList [] [⟨['x'], 1, 3⟩]
    (List.pairwise_singleton _ _)).2 (by decide)

end Ramayana
